import Mathlib

/-!
Verification of the VO resource discovery and disambiguation workflow of
`UseCase_III.ipynb` (the `ResourceDiscoveryFilter` component of the spec):
keyword/description filtering (`getrow`), deduplication by short name
(`getunique`), bibcode lookup, and table-name resolution by prefix.

Python strings are modelled as Lean `String`; the Python substring test
`a in b`, `str.split()` and `str.startswith` are embedded below as executable
functions over the underlying character lists.
-/

/-- One registered VO service/table entry, as consumed by the notebook
(`short_name`, `res_description`, `source_value`, `creator_seq`,
`access_url` are the attribute/column names used in `UseCase_III.ipynb`).
A missing description or bibcode is modelled as the empty string. -/
structure ResourceRecord where
  short_name : String
  res_description : String
  source_value : String
  creator_seq : List String
  access_url : String
deriving DecidableEq, Repr, Inhabited

/-- Boolean list-prefix test over characters (used to embed Python's
substring and `startswith` operators). -/
def isPrefixL : List Char → List Char → Bool
  | [], _ => true
  | _ :: _, [] => false
  | a :: as, b :: bs => a == b && isPrefixL as bs

/-- Boolean substring occurrence test over character lists: the needle is a
prefix of some suffix of the haystack. -/
def isSubstrL (needle : List Char) : List Char → Bool
  | [] => isPrefixL needle []
  | c :: rest => isPrefixL needle (c :: rest) || isSubstrL needle rest

/-- Embedding of the Python expression `needle in hay` on strings:
case-sensitive literal substring containment, no normalization. -/
def pyIn (needle hay : String) : Bool :=
  isSubstrL needle.data hay.data

/-- Embedding of Python `s.startswith(t)`. -/
def startswith (s t : String) : Bool :=
  isPrefixL t.data s.data

/-- Worker for `pySplit`: `cur` holds the current token's characters in
reverse; tokens are maximal runs of non-whitespace characters. -/
def pySplitGo (cur : List Char) : List Char → List String
  | [] => if cur.isEmpty then [] else [String.mk cur.reverse]
  | c :: rest =>
      if c.isWhitespace then
        if cur.isEmpty then pySplitGo [] rest
        else String.mk cur.reverse :: pySplitGo [] rest
      else pySplitGo (c :: cur) rest

/-- Embedding of Python `keywords.split()` (no argument): split on runs of
whitespace, never producing empty tokens; `"".split()` is `[]`. -/
def pySplit (s : String) : List String :=
  pySplitGo [] s.data

/-- Embedding of `getrow(result, keywords)` from `UseCase_III.ipynb`:
splits `keywords` on whitespace, and for each row `i` of the result counts
how many of the keywords occur in `result[i].res_description`
(`n_match`); the row index is kept iff the count equals the number of
keywords. -/
def getrow (result : List ResourceRecord) (keywords : String) : List Nat :=
  (List.range result.length).filter
    (fun i =>
      (pySplit keywords).countP
          (fun each => pyIn each (result.getD i default).res_description)
        == (pySplit keywords).length)

/-- The `short_name` of the record at index `j` (the lookup
`result[ind[i]].short_name` of the Python loop). -/
def shortNameAt (result : List ResourceRecord) (j : Nat) : String :=
  (result.getD j default).short_name

/-- Worker for `getunique`: `seen` is the `short_name` accumulator list of
the Python loop; an index is kept iff its record's `short_name` has not
been seen, in which case the name is appended to `seen`. -/
def getuniqueGo (result : List ResourceRecord) (seen : List String) :
    List Nat → List Nat
  | [] => []
  | j :: rest =>
      if shortNameAt result j ∈ seen then
        getuniqueGo result seen rest
      else
        j :: getuniqueGo result (seen ++ [shortNameAt result j]) rest

/-- Embedding of `getunique(result, ind)` from `UseCase_III.ipynb`: walks
`ind` in order, keeping an index iff its record's `short_name` was not
already collected. -/
def getunique (result : List ResourceRecord) (ind : List Nat) : List Nat :=
  getuniqueGo result [] ind

/-- Embedding of `np.where(all_bibcodes == bibcode)` from
`UseCase_III.ipynb` (cells using `getcolumn('source_value')`): the indices,
in increasing order, of the records whose `source_value` exactly equals
the bibcode. -/
def bibcodeMatches (c : List ResourceRecord) (b : String) : List Nat :=
  (List.range c.length).filter (fun i => (c.getD i default).source_value == b)

/-- `findByBibcode` of the spec, as realised by the notebook's
`np.where` match composed with taking the first matched row
(`int(match[0])` / `match[0]`): the first record with exactly equal
`source_value`, `none` (the spec's `NotFound`) when no record matches.
Returning `none` is the embedding of the non-fatal empty match set. -/
def findByBibcode (c : List ResourceRecord) (b : String) : Option ResourceRecord :=
  match bibcodeMatches c b with
  | [] => none
  | i :: _ => some (c.getD i default)

/-- Embedding of the notebook's alternative linear-scan fragment
(`for s in tap_services.to_table(): ... if bibcode in s['source_value']`):
first index whose `source_value` merely CONTAINS the bibcode as a
substring; kept here for comparison with `findByBibcode`. -/
def findByBibcodeLoop (c : List ResourceRecord) (b : String) : Option Nat :=
  (List.range c.length).find? (fun i => pyIn b (c.getD i default).source_value)

/-- Embedding of the first table-name loop of `UseCase_III.ipynb`
(`if short_name in name: print(name)`): the candidate table names that
contain `short_name` as a substring. -/
def tableNameSubstringHits (tables : List String) (short_name : String) :
    List String :=
  tables.filter (fun name => pyIn short_name name)

/-- Embedding of the second, restricted table-name loop of
`UseCase_III.ipynb` (`if name.startswith(short_name): ... tablename=name`):
the candidate table names that have `short_name` as a prefix. -/
def tableNameStartswithHits (tables : List String) (short_name : String) :
    List String :=
  tables.filter (fun name => startswith name short_name)

/-- Result type of the spec's `resolveTableName` operation. -/
inductive ResolveResult where
  | found : String → ResolveResult
  | notFound : ResolveResult
  | ambiguous : List String → ResolveResult
deriving DecidableEq, Repr

/-- Modelled from the spec: the notebook only demonstrates the prefix
matching loop (cell with `name.startswith(short_name)`, which prints every
match and keeps the last one in `tablename`); the spec's `resolveTableName`
return protocol — the single candidate when exactly one prefix match
exists, `NotFound` on zero, `Ambiguous` carrying the full matching set on
more than one — is not implemented anywhere in the source, so it is
modelled here over the source's prefix-match rule. -/
def resolveTableName (tables : List String) (short_name : String) :
    ResolveResult :=
  match tableNameStartswithHits tables short_name with
  | [] => ResolveResult.notFound
  | [t] => ResolveResult.found t
  | ts => ResolveResult.ambiguous ts

/-- Record constructor helper for the concrete scenario collections. -/
def mkRec (sn desc bib : String) : ResourceRecord :=
  { short_name := sn, res_description := desc, source_value := bib,
    creator_seq := [], access_url := "" }

/-- Scenario collection for the keyword filter: 5 records of which exactly
records 1 and 3 have descriptions containing both "magnitude" and
"color". -/
def sampleFilter : List ResourceRecord :=
  [ mkRec "A" "stars with colors" ""
  , mkRec "B" "magnitude and color data" ""
  , mkRec "C" "proper motions" ""
  , mkRec "D" "B and V magnitude, color index" ""
  , mkRec "E" "magnitudes only" "" ]

/-- Scenario collection for the dedup operation: records 1, 4 and 7 share
`short_name = "VizierX"`, the rest are unique. -/
def sampleDedup : List ResourceRecord :=
  [ mkRec "A" "" ""
  , mkRec "VizierX" "" ""
  , mkRec "B" "" ""
  , mkRec "C" "" ""
  , mkRec "VizierX" "" ""
  , mkRec "D" "" ""
  , mkRec "E" "" ""
  , mkRec "VizierX" "" "" ]

/-- Scenario collection for the bibcode lookup: the Eichhorn bibcode
`1970MmRAS..73..125E` is present at index 1. -/
def sampleBib : List ResourceRecord :=
  [ mkRec "I/89" "" "1900XXXX...1...1X"
  , mkRec "I/90" "" "1970MmRAS..73..125E"
  , mkRec "I/91" "" "1998A&A...329..101R" ]

/-- Record with an empty description used by the safety scenario. -/
def sampleSafety : List ResourceRecord :=
  [ mkRec "A" "magnitude catalog" ""
  , mkRec "B" "" ""
  , mkRec "C" "colors" "" ]

/-- Membership characterization of `getrow`: an index is returned iff it is
in range and every keyword occurs in the record's description. -/
theorem mem_getrow (C : List ResourceRecord) (K : String) (i : Nat) :
    i ∈ getrow C K ↔ i < C.length ∧
      ∀ k ∈ pySplit K, pyIn k (C.getD i default).res_description = true := by
  unfold getrow
  simp only [List.mem_filter, List.mem_range, beq_iff_eq, List.countP_eq_length]

/-- `getrow` output is strictly increasing (it filters `List.range`). -/
theorem getrow_pairwise (C : List ResourceRecord) (K : String) :
    (getrow C K).Pairwise (· < ·) := by
  unfold getrow
  exact (List.pairwise_lt_range _).sublist (List.filter_sublist _)

/-- Every token produced by `pySplitGo` is non-empty. -/
theorem pySplitGo_mem_ne_nil :
    ∀ (rest cur : List Char) (t : String), t ∈ pySplitGo cur rest → t.data ≠ [] := by
  intro rest
  induction rest with
  | nil =>
      intro cur t ht
      by_cases h : cur.isEmpty
      · simp [pySplitGo, h] at ht
      · simp only [pySplitGo, h, if_false, Bool.false_eq_true, List.mem_singleton] at ht
        subst ht
        simp only [String.data]
        intro hrev
        exact h (by simp [List.isEmpty_iff, List.reverse_eq_nil_iff.mp hrev])
  | cons c rest ih =>
      intro cur t ht
      by_cases hw : c.isWhitespace
      · by_cases h : cur.isEmpty
        · simp only [pySplitGo, hw, h, if_true] at ht
          exact ih [] t ht
        · simp only [pySplitGo, hw, h, if_true, Bool.false_eq_true, if_false,
            List.mem_cons] at ht
          rcases ht with rfl | ht
          · simp only [String.data]
            intro hrev
            exact h (by simp [List.isEmpty_iff, List.reverse_eq_nil_iff.mp hrev])
          · exact ih [] t ht
      · simp only [pySplitGo, hw, Bool.false_eq_true, if_false] at ht
        exact ih (c :: cur) t ht

/-- Every keyword produced by `pySplit` is non-empty. -/
theorem pySplit_mem_ne_nil (s : String) (t : String) (ht : t ∈ pySplit s) :
    t.data ≠ [] :=
  pySplitGo_mem_ne_nil s.data [] t ht

/-- A non-empty needle is never a substring of the empty string. -/
theorem pyIn_empty_hay (k : String) (hk : k.data ≠ []) : pyIn k "" = false := by
  unfold pyIn
  cases h : k.data with
  | nil => exact absurd h hk
  | cons c cs => simp [isSubstrL, isPrefixL]

/-- C1: for every resource collection C and non-empty keyword set K,
`filterByKeywords` (the notebook's `getrow`) returns exactly the indices i,
strictly increasing hence in original order with no duplicates, such that
every keyword of K occurs as a case-sensitive literal substring of
`C[i].res_description`. -/
theorem getrow_keyword_filter (C : List ResourceRecord) (K : String)
    (_hK : pySplit K ≠ []) :
    (∀ i, i ∈ getrow C K ↔ i < C.length ∧
        ∀ k ∈ pySplit K, pyIn k (C.getD i default).res_description = true) ∧
    (getrow C K).Pairwise (· < ·) ∧ (getrow C K).Nodup := by
  refine ⟨mem_getrow C K, getrow_pairwise C K, ?_⟩
  exact (getrow_pairwise C K).imp (fun h => Nat.ne_of_lt h)

/-- Witness for C1 at the spec's 5-record scenario: exactly records 1 and 3
contain both "magnitude" and "color", and `getrow` returns `[1, 3]`. -/
theorem getrow_keyword_filter_witness :
    pySplit "magnitude color" ≠ [] ∧
    ((∀ i, i ∈ getrow sampleFilter "magnitude color" ↔ i < sampleFilter.length ∧
        ∀ k ∈ pySplit "magnitude color",
          pyIn k (sampleFilter.getD i default).res_description = true) ∧
      (getrow sampleFilter "magnitude color").Pairwise (· < ·) ∧
      (getrow sampleFilter "magnitude color").Nodup) ∧
    getrow sampleFilter "magnitude color" = [1, 3] :=
  ⟨by decide, getrow_keyword_filter sampleFilter "magnitude color" (by decide),
   by decide⟩

/-- C9: when the keyword string splits into zero keywords (for example the
empty string), `getrow` returns every index of the collection, `0` through
`len - 1` in order, rather than raising an error. -/
theorem getrow_empty_keywords (C : List ResourceRecord) (K : String)
    (hK : pySplit K = []) : getrow C K = List.range C.length := by
  unfold getrow
  rw [hK]
  simp

/-- Witness for C9 at the empty keyword string on the 5-record collection. -/
theorem getrow_empty_keywords_witness :
    pySplit "" = [] ∧ getrow sampleFilter "" = List.range sampleFilter.length ∧
    List.range sampleFilter.length = [0, 1, 2, 3, 4] :=
  ⟨rfl, getrow_empty_keywords sampleFilter "" rfl, by decide⟩

/-- C7: the keyword filter never signals an error: the empty collection
yields `[]`, a collection where no record matches yields `[]`, and a record
with an empty (or missing, modelled as empty) description is never
returned for a non-empty keyword set. -/
theorem getrow_safety (C : List ResourceRecord) (K : String) :
    getrow ([] : List ResourceRecord) K = [] ∧
    ((∀ i, i < C.length →
        ¬ ∀ k ∈ pySplit K, pyIn k (C.getD i default).res_description = true) →
      getrow C K = []) ∧
    (pySplit K ≠ [] → ∀ i, i < C.length →
      (C.getD i default).res_description = "" → i ∉ getrow C K) := by
  refine ⟨rfl, ?_, ?_⟩
  · intro h
    rw [List.eq_nil_iff_forall_not_mem]
    intro i hi
    rw [mem_getrow] at hi
    exact h i hi.1 hi.2
  · intro hK i _hi hdesc hmem
    rw [mem_getrow] at hmem
    obtain ⟨-, hall⟩ := hmem
    obtain ⟨k0, hk0⟩ := List.exists_mem_of_ne_nil _ hK
    have hx := hall k0 hk0
    rw [hdesc, pyIn_empty_hay k0 (pySplit_mem_ne_nil K k0 hk0)] at hx
    exact Bool.false_ne_true hx

/-- Witness for C7: on a collection whose record 1 has an empty
description, index 1 is never returned for keyword "magnitude", and the
empty collection yields the empty index list. -/
theorem getrow_safety_witness :
    pySplit "magnitude" ≠ [] ∧
    (sampleSafety.getD 1 default).res_description = "" ∧
    1 ∉ getrow sampleSafety "magnitude" ∧
    getrow ([] : List ResourceRecord) "magnitude" = [] :=
  ⟨by decide, rfl,
   (getrow_safety sampleSafety "magnitude").2.2 (by decide) 1 (by decide) rfl,
   (getrow_safety sampleSafety "magnitude").1⟩

/-- `getuniqueGo` returns a subsequence of its input index list. -/
theorem getuniqueGo_sublist (result : List ResourceRecord) :
    ∀ (I : List Nat) (seen : List String),
      List.Sublist (getuniqueGo result seen I) I := by
  intro I
  induction I with
  | nil => intro seen; simp [getuniqueGo]
  | cons j rest ih =>
      intro seen
      rw [getuniqueGo]
      by_cases h : shortNameAt result j ∈ seen
      · rw [if_pos h]
        exact (ih seen).cons j
      · rw [if_neg h]
        exact (ih _).cons₂ j

/-- Soundness of `getuniqueGo`: every returned index has an unseen short
name and occurs at some input position that is the first position carrying
that short name. -/
theorem getuniqueGo_mem_sound (result : List ResourceRecord) :
    ∀ (I : List Nat) (seen : List String) (j : Nat),
      j ∈ getuniqueGo result seen I →
      shortNameAt result j ∉ seen ∧
      ∃ k, k < I.length ∧ I.getD k 0 = j ∧
        ∀ k', k' < k → shortNameAt result (I.getD k' 0) ≠ shortNameAt result j := by
  intro I
  induction I with
  | nil => intro seen j h; simp [getuniqueGo] at h
  | cons a rest ih =>
      intro seen j h
      rw [getuniqueGo] at h
      by_cases hz : shortNameAt result a ∈ seen
      · rw [if_pos hz] at h
        obtain ⟨hns, k, hk, hgd, hfr⟩ := ih seen j h
        refine ⟨hns, k + 1, Nat.succ_lt_succ hk, by rwa [List.getD_cons_succ], ?_⟩
        intro k' hk'
        cases k' with
        | zero =>
            rw [List.getD_cons_zero]
            exact fun heq => hns (heq ▸ hz)
        | succ k'' =>
            rw [List.getD_cons_succ]
            exact hfr k'' (Nat.lt_of_succ_lt_succ hk')
      · rw [if_neg hz] at h
        rcases List.mem_cons.mp h with rfl | h'
        · exact ⟨hz, 0, Nat.succ_pos _, List.getD_cons_zero,
            fun k' hk' => absurd hk' (Nat.not_lt_zero k')⟩
        · obtain ⟨hns, k, hk, hgd, hfr⟩ := ih _ j h'
          have hns' : shortNameAt result j ∉ seen :=
            fun hx => hns (List.mem_append_left _ hx)
          have hne : shortNameAt result j ≠ shortNameAt result a :=
            fun heq => hns (List.mem_append_right _ (by simp [heq]))
          refine ⟨hns', k + 1, Nat.succ_lt_succ hk, by rwa [List.getD_cons_succ], ?_⟩
          intro k' hk'
          cases k' with
          | zero =>
              rw [List.getD_cons_zero]
              exact hne.symm
          | succ k'' =>
              rw [List.getD_cons_succ]
              exact hfr k'' (Nat.lt_of_succ_lt_succ hk')

/-- Completeness of `getuniqueGo`: the index at any input position whose
short name is unseen and fresh among all earlier positions is returned. -/
theorem getuniqueGo_mem_complete (result : List ResourceRecord) :
    ∀ (I : List Nat) (seen : List String) (k : Nat), k < I.length →
      shortNameAt result (I.getD k 0) ∉ seen →
      (∀ k', k' < k →
        shortNameAt result (I.getD k' 0) ≠ shortNameAt result (I.getD k 0)) →
      I.getD k 0 ∈ getuniqueGo result seen I := by
  intro I
  induction I with
  | nil => intro seen k hk; exact absurd hk (by simp)
  | cons a rest ih =>
      intro seen k hk hseen hfresh
      cases k with
      | zero =>
          rw [List.getD_cons_zero] at hseen ⊢
          rw [getuniqueGo]
          rw [if_neg hseen]
          exact List.mem_cons_self _ _
      | succ k =>
          have hk' : k < rest.length := Nat.lt_of_succ_lt_succ hk
          rw [List.getD_cons_succ] at hseen hfresh ⊢
          have hja : shortNameAt result a ≠ shortNameAt result (rest.getD k 0) := by
            have := hfresh 0 (Nat.succ_pos k)
            rwa [List.getD_cons_zero] at this
          rw [getuniqueGo]
          by_cases hz : shortNameAt result a ∈ seen
          · rw [if_pos hz]
            refine ih seen k hk' hseen (fun k' h => ?_)
            have := hfresh (k' + 1) (Nat.succ_lt_succ h)
            rwa [List.getD_cons_succ] at this
          · rw [if_neg hz]
            refine List.mem_cons_of_mem _ (ih _ k hk' ?_ (fun k' h => ?_))
            · intro hx
              rcases List.mem_append.mp hx with h1 | h2
              · exact hseen h1
              · have heq : shortNameAt result (rest.getD k 0) = shortNameAt result a := by
                  simpa using h2
                exact hja heq.symm
            · have := hfresh (k' + 1) (Nat.succ_lt_succ h)
              rwa [List.getD_cons_succ] at this

/-- The short names of the indices returned by `getuniqueGo` are pairwise
distinct. -/
theorem getuniqueGo_names_nodup (result : List ResourceRecord) :
    ∀ (I : List Nat) (seen : List String),
      ((getuniqueGo result seen I).map (shortNameAt result)).Nodup := by
  intro I
  induction I with
  | nil => intro seen; simp [getuniqueGo]
  | cons a rest ih =>
      intro seen
      rw [getuniqueGo]
      by_cases hz : shortNameAt result a ∈ seen
      · rw [if_pos hz]
        exact ih seen
      · rw [if_neg hz]
        simp only [List.map_cons, List.nodup_cons]
        refine ⟨?_, ih _⟩
        intro hmem
        rcases List.mem_map.mp hmem with ⟨j, hj, hname⟩
        have hns := (getuniqueGo_mem_sound result rest _ j hj).1
        exact hns (List.mem_append_right _ (by simp [hname]))

/-- `getuniqueGo` is the identity on an index list whose short names are
pairwise distinct and disjoint from `seen`. -/
theorem getuniqueGo_fixed (result : List ResourceRecord) :
    ∀ (I : List Nat) (seen : List String),
      (I.map (shortNameAt result)).Nodup →
      (∀ j ∈ I, shortNameAt result j ∉ seen) →
      getuniqueGo result seen I = I := by
  intro I
  induction I with
  | nil => intro seen _ _; rfl
  | cons a rest ih =>
      intro seen hnd hns
      rw [getuniqueGo]
      rw [if_neg (hns a (List.mem_cons_self a rest))]
      simp only [List.map_cons, List.nodup_cons] at hnd
      congr 1
      refine ih _ hnd.2 ?_
      intro j hj hmem
      rcases List.mem_append.mp hmem with h1 | h2
      · exact hns j (List.mem_cons_of_mem a hj) h1
      · have heq : shortNameAt result j = shortNameAt result a := by simpa using h2
        exact hnd.1 (heq ▸ List.mem_map_of_mem (shortNameAt result) hj)

/-- C3: `deduplicateByShortName` (the notebook's `getunique`) walks the
index list in order, keeps the first index for each distinct `short_name`
and discards every later index sharing it: the output is a subsequence of
the input (hence order-preserving), its length is at most the input's, and
an index is returned iff it sits at an input position earlier than every
other position carrying the same `short_name`; on the scenario collection
with `short_name = "VizierX"` at indices 1, 4 and 7, index 1 is kept and 4
and 7 are dropped. -/
theorem getunique_first_occurrence (C : List ResourceRecord) (I : List Nat) :
    List.Sublist (getunique C I) I ∧
    (getunique C I).length ≤ I.length ∧
    (∀ j, j ∈ getunique C I ↔
      ∃ k, k < I.length ∧ I.getD k 0 = j ∧
        ∀ k', k' < k → shortNameAt C (I.getD k' 0) ≠ shortNameAt C j) ∧
    getunique sampleDedup [0, 1, 4, 5, 7] = [0, 1, 5] := by
  unfold getunique
  refine ⟨getuniqueGo_sublist C I [], (getuniqueGo_sublist C I []).length_le,
    ?_, by decide⟩
  intro j
  constructor
  · intro h
    obtain ⟨-, k, hk, hgd, hfr⟩ := getuniqueGo_mem_sound C I [] j h
    exact ⟨k, hk, hgd, hfr⟩
  · rintro ⟨k, hk, rfl, hfr⟩
    exact getuniqueGo_mem_complete C I [] k hk (by simp) hfr

/-- C6: `deduplicateByShortName` is idempotent: applying `getunique` to
its own output returns that output unchanged. -/
theorem getunique_idempotent (C : List ResourceRecord) (I : List Nat) :
    getunique C (getunique C I) = getunique C I := by
  unfold getunique
  apply getuniqueGo_fixed
  · exact getuniqueGo_names_nodup C I []
  · intro j _
    simp

/-- C10: the output of `getunique` is a subsequence of its input whose
records' short names are pairwise distinct; in particular every index
occurs at most once in the output even if it occurs repeatedly in the
input. -/
theorem getunique_subsequence_distinct (C : List ResourceRecord) (I : List Nat) :
    List.Sublist (getunique C I) I ∧
    ((getunique C I).map (shortNameAt C)).Nodup ∧
    ∀ j, (getunique C I).count j ≤ 1 := by
  refine ⟨getuniqueGo_sublist C I [], getuniqueGo_names_nodup C I [], ?_⟩
  have hnd : (getunique C I).Nodup :=
    List.Nodup.of_map (shortNameAt C) (getuniqueGo_names_nodup C I [])
  exact fun j => List.nodup_iff_count_le_one.mp hnd j

/-- The head of a filter over a strictly increasing list satisfies the
predicate and is the least element of the list doing so. -/
theorem filter_sorted_head (p : Nat → Bool) :
    ∀ (l : List Nat), l.Pairwise (· < ·) → ∀ i t, l.filter p = i :: t →
      p i = true ∧ i ∈ l ∧ ∀ j ∈ l, j < i → p j = false := by
  intro l
  induction l with
  | nil => intro _ i t h; simp at h
  | cons a l ih =>
      intro hp i t h
      rw [List.filter_cons] at h
      cases hpa : p a with
      | true =>
          rw [hpa] at h
          simp only [if_true] at h
          injection h with h1 h2
          subst h1
          refine ⟨hpa, List.mem_cons_self _ _, ?_⟩
          intro j hj hlt
          rcases List.mem_cons.mp hj with rfl | hj'
          · exact absurd hlt (lt_irrefl _)
          · have hlt2 := (List.pairwise_cons.mp hp).1 j hj'
            omega
      | false =>
          rw [hpa] at h
          simp only [Bool.false_eq_true, if_false] at h
          obtain ⟨hpi, hmem, hall⟩ := ih (List.pairwise_cons.mp hp).2 i t h
          refine ⟨hpi, List.mem_cons_of_mem _ hmem, ?_⟩
          intro j hj hlt
          rcases List.mem_cons.mp hj with rfl | hj'
          · exact hpa
          · exact hall j hj' hlt

/-- C4: `findByBibcode` performs a linear scan returning the first record
whose `source_value` exactly equals the input bibcode, and returns `none`
(the non-fatal `NotFound` outcome, left to the caller) precisely when no
record matches. -/
theorem findByBibcode_first_exact (c : List ResourceRecord) (b : String) :
    (∀ r, findByBibcode c b = some r →
      ∃ i, i < c.length ∧ r = c.getD i default ∧ r.source_value = b ∧
        ∀ j, j < i → (c.getD j default).source_value ≠ b) ∧
    (findByBibcode c b = none ↔
      ∀ i, i < c.length → (c.getD i default).source_value ≠ b) := by
  have hnone : findByBibcode c b = none ↔ bibcodeMatches c b = [] := by
    unfold findByBibcode
    cases bibcodeMatches c b with
    | nil => simp
    | cons x t => simp
  constructor
  · intro r h
    unfold findByBibcode at h
    cases hm : bibcodeMatches c b with
    | nil => rw [hm] at h; exact absurd h (by simp)
    | cons i t =>
        rw [hm] at h
        simp only [Option.some.injEq] at h
        unfold bibcodeMatches at hm
        obtain ⟨hpi, hmem, hall⟩ :=
          filter_sorted_head _ (List.range c.length) (List.pairwise_lt_range _)
            i t hm
        have hib : (c.getD i default).source_value = b := beq_iff_eq.mp hpi
        refine ⟨i, List.mem_range.mp hmem, h.symm, ?_, ?_⟩
        · rw [← h]
          exact hib
        · intro j hj heq
          have hjr : j ∈ List.range c.length :=
            List.mem_range.mpr (lt_trans hj (List.mem_range.mp hmem))
          have hf := hall j hjr hj
          rw [heq] at hf
          simp at hf
  · rw [hnone]
    unfold bibcodeMatches
    rw [List.filter_eq_nil_iff]
    constructor
    · intro h i hi heq
      exact h i (List.mem_range.mpr hi) (beq_iff_eq.mpr heq)
    · intro h i hir hbeq
      exact h i (List.mem_range.mp hir) (beq_iff_eq.mp hbeq)

/-- Witness for C4: the Eichhorn bibcode present at index 1 of the sample
collection is found (the record itself is returned), and the absent bibcode
"0000ZZZ" yields `none`. -/
theorem findByBibcode_first_exact_witness :
    findByBibcode sampleBib "0000ZZZ" = none ∧
    findByBibcode sampleBib "1970MmRAS..73..125E"
      = some (mkRec "I/90" "" "1970MmRAS..73..125E") :=
  ⟨(findByBibcode_first_exact sampleBib "0000ZZZ").2.mpr (by decide), by decide⟩

/-- C5: the spec-modelled `resolveTableName` returns the single candidate
iff exactly one table name passes the prefix rule, `notFound` iff zero
pass, and `ambiguous` carrying the full matching set iff at least two
pass. -/
theorem resolveTableName_cases (tables : List String) (s : String) :
    (∀ t, resolveTableName tables s = ResolveResult.found t ↔
        tableNameStartswithHits tables s = [t]) ∧
    (resolveTableName tables s = ResolveResult.notFound ↔
        tableNameStartswithHits tables s = []) ∧
    (∀ ts, resolveTableName tables s = ResolveResult.ambiguous ts ↔
        tableNameStartswithHits tables s = ts ∧ 2 ≤ ts.length) := by
  unfold resolveTableName
  rcases hm : tableNameStartswithHits tables s with _ | ⟨a, _ | ⟨b, l⟩⟩
  · refine ⟨?_, by simp, ?_⟩
    · intro t
      simp
    · intro ts
      constructor
      · intro h
        cases h
      · rintro ⟨rfl, hlen⟩
        simp at hlen
  · refine ⟨?_, by simp, ?_⟩
    · intro t
      constructor
      · intro h
        cases h
        rfl
      · intro h
        injection h with h1 h2
        subst h1
        rfl
    · intro ts
      constructor
      · intro h
        cases h
      · rintro ⟨rfl, hlen⟩
        simp at hlen
  · refine ⟨?_, by simp, ?_⟩
    · intro t
      constructor
      · intro h
        cases h
      · intro h
        injection h with h1 h2
        simp at h2
    · intro ts
      constructor
      · intro h
        cases h
        exact ⟨rfl, by simp only [List.length_cons]; omega⟩
      · rintro ⟨rfl, hlen⟩
        rfl

/-- C2 counterexample: with table names {"I/90/catalog", "I/900/members"}
and `short_name = "I/90"`, the prefix rule of the source
(`name.startswith(short_name)`) matches BOTH names — "I/90" is also a
prefix of "I/900/members" — refuting the claim that only "I/90/catalog"
matches. -/
theorem startswith_collision_counterexample :
    startswith "I/900/members" "I/90" = true ∧
    "I/900/members" ∈ tableNameStartswithHits ["I/90/catalog", "I/900/members"] "I/90" ∧
    tableNameStartswithHits ["I/90/catalog", "I/900/members"] "I/90"
      ≠ ["I/90/catalog"] := by
  decide

/-- C2 (amended): a candidate table name matches iff it has `short_name`
as a prefix; this excludes names where the short name occurs only
mid-string (such as "VI/90/catalog" for "I/90", which substring matching
accepts), but on {"I/90/catalog", "I/900/members"} with `short_name =
"I/90"` BOTH names match the prefix rule, so it does not separate "I/90"
from "I/900"-style names. -/
theorem tableName_startswith_rule (tables : List String) (s n : String) :
    (n ∈ tableNameStartswithHits tables s ↔ n ∈ tables ∧ startswith n s = true) ∧
    tableNameStartswithHits ["I/90/catalog", "I/900/members"] "I/90"
      = ["I/90/catalog", "I/900/members"] ∧
    tableNameStartswithHits ["VI/90/catalog"] "I/90" = [] ∧
    tableNameSubstringHits ["VI/90/catalog"] "I/90" = ["VI/90/catalog"] :=
  ⟨List.mem_filter, by decide, by decide, by decide⟩

/-- C8: the four discovery operations are pure functions of their inputs:
equal inputs give equal outputs (side-effect freedom holds by construction
of the embedding — all four are total Lean functions). -/
theorem discovery_ops_deterministic (A A' D D' E E' : List ResourceRecord)
    (K K' : String) (I I' : List Nat) (b b' : String) (T T' : List String)
    (s s' : String) (hA : A = A') (hK : K = K') (hD : D = D') (hI : I = I')
    (hE : E = E') (hb : b = b') (hT : T = T') (hs : s = s') :
    getrow A K = getrow A' K' ∧ getunique D I = getunique D' I' ∧
    findByBibcode E b = findByBibcode E' b' ∧
    resolveTableName T s = resolveTableName T' s' := by
  subst hA
  subst hK
  subst hD
  subst hI
  subst hE
  subst hb
  subst hT
  subst hs
  exact ⟨rfl, rfl, rfl, rfl⟩

/-- Witness for C8 at concrete inputs: repeated calls agree. -/
theorem discovery_ops_deterministic_witness :
    getrow sampleFilter "magnitude color" = getrow sampleFilter "magnitude color" ∧
    getunique sampleDedup [1, 4, 7] = getunique sampleDedup [1, 4, 7] ∧
    findByBibcode sampleBib "1970MmRAS..73..125E"
      = findByBibcode sampleBib "1970MmRAS..73..125E" ∧
    resolveTableName ["I/90/catalog"] "I/90"
      = resolveTableName ["I/90/catalog"] "I/90" :=
  discovery_ops_deterministic sampleFilter sampleFilter sampleDedup sampleDedup
    sampleBib sampleBib "magnitude color" "magnitude color" [1, 4, 7] [1, 4, 7]
    "1970MmRAS..73..125E" "1970MmRAS..73..125E" ["I/90/catalog"] ["I/90/catalog"]
    "I/90" "I/90" rfl rfl rfl rfl rfl rfl rfl rfl
